import Mathlib

/-!
Verification of the bodhi masher push-orchestration engine
(shallow embedding of src/bodhi/masher.py).

The embedding models:
* the data objects consumed by the masher (updates, releases, builds),
* `Masher.organize_updates` (grouping of update titles into the nested
  release/request dictionary),
* `Masher.prioritize_updates` (partition into important/normal batches),
* the wave scheduling structure of `Masher.work` (stable then testing,
  important batch before normal batch, with thread start/join barriers),
* `MasherThread.work` as an event-trace machine recording PushState file
  saves/removals, completed pipeline stages and emitted notifications,
* `MasherThread.mash`, `MasherThread.load_updates`,
  `MasherThread.determine_tag_actions` and the symlink part of
  `MasherThread.sanity_check_repo`.
-/

set_option maxHeartbeats 1000000

/-- `UpdateRequest` enum from bodhi.models (testing/stable are the only
request kinds the masher pipeline handles). -/
inductive UpdateRequest
  | testing
  | stable
deriving DecidableEq

/-- `UpdateRequest.value`: the string key of a request, as used by
`organize_updates` for dictionary keys and by `Masher.work` for wave order. -/
def UpdateRequest.value : UpdateRequest → String
  | UpdateRequest.testing => "testing"
  | UpdateRequest.stable => "stable"

/-- `UpdateStatus` lifecycle states used by the pipeline. -/
inductive UpdateStatus
  | pending
  | testing
  | stable
deriving DecidableEq

/-- `UpdateType` classification; `security` drives batch prioritization. -/
inductive UpdateType
  | bugfix
  | security
  | enhancement
  | newpackage
deriving DecidableEq

/-- `ReleaseState` lifecycle of a release; `pending` changes tag planning. -/
inductive ReleaseState
  | disabled
  | pending
  | current
  | archived
deriving DecidableEq

/-- A koji build: its name-version-release string and current tag memberships. -/
structure Build where
  nvr : String
  tags : List String
deriving DecidableEq

/-- The release fields the masher reads. -/
structure Release where
  name : String
  long_name : String
  state : ReleaseState
deriving DecidableEq

/-- The update fields the masher reads. -/
structure Update where
  title : String
  release : Release
  request : UpdateRequest
  status : UpdateStatus
  type : UpdateType
  builds : List Build
  requested_tag : String
deriving DecidableEq

/-- The nested dictionary built by `Masher.organize_updates`:
`{release.name: {request.value: [Update, ...]}}`, modelled as insertion
ordered association lists. -/
abbrev Groups := List (String × List (String × List Update))

/-- Append an update to the list held at key `req` of the inner dictionary
(creating the entry if absent), as `defaultdict(list)` appending does. -/
def addToReq : List (String × List Update) → String → Update → List (String × List Update)
  | [], req, u => [(req, [u])]
  | (r, us) :: rest, req, u =>
    if r = req then (r, us ++ [u]) :: rest else (r, us) :: addToReq rest req u

/-- Append an update at keys `(rel, req)` of the nested dictionary. -/
def addToGroups : Groups → String → String → Update → Groups
  | [], rel, req, u => [(rel, [(req, [u])])]
  | (rn, reqs) :: rest, rel, req, u =>
    if rn = rel then (rn, addToReq reqs req u) :: rest
    else (rn, reqs) :: addToGroups rest rel req u

/-- Inner dictionary lookup (empty list when the key is absent). -/
def lookupReq : List (String × List Update) → String → List Update
  | [], _ => []
  | (r, us) :: rest, req => if r = req then us else lookupReq rest req

/-- Nested dictionary lookup: the cell of updates grouped under
`(rel, req)` (empty when absent, as `defaultdict` reads would create). -/
def lookupCell : Groups → String → String → List Update
  | [], _, _ => []
  | (rn, reqs) :: rest, rel, req =>
    if rn = rel then lookupReq reqs req else lookupCell rest rel req

/-- `Masher.organize_updates`: resolve each title against the catalog
(`session.query(Update).filter_by(title=title).first()`); a resolved update
is appended to `releases[update.release.name][update.request.value]`;
an unresolved title is logged and skipped. -/
def Masher.organize_updates (catalog : String → Option Update) (titles : List String) : Groups :=
  titles.foldl
    (fun gs title =>
      match catalog title with
      | some u => addToGroups gs u.release.name u.request.value u
      | none => gs)
    []

/-- A `(release, request, updates)` triple as iterated by `Masher.work`
and produced by `Masher.prioritize_updates`. -/
abbrev Repo := String × String × List Update

/-- Enumeration of the nested dictionary as `(release, request, updates)`
triples, matching the two nested loops of `prioritize_updates`. -/
def Masher.workUnits (releases : Groups) : List Repo :=
  releases.flatMap (fun p => p.2.map (fun q => (p.1, q.1, q.2)))

/-- The for/else security scan of `prioritize_updates`: a repo is important
iff some update in it has security type. -/
def containsSecurity (updates : List Update) : Bool :=
  updates.any (fun u => u.type == UpdateType.security)

/-- `Masher.prioritize_updates`: partition the work units into the
`important` batch (some security update) and the `normal` batch (no
security update), preserving iteration order inside each batch. -/
def Masher.prioritize_updates (releases : Groups) : List Repo × List Repo :=
  (Masher.workUnits releases).foldl
    (fun acc r =>
      if containsSecurity r.2.2 then (acc.1 ++ [r], acc.2) else (acc.1, acc.2 ++ [r]))
    ([], [])

/-- The work units of `batch` picked by the wave for request kind `req`
(`if request == req` in `Masher.work`). -/
def waveUnits (batch : List Repo) (req : String) : List Repo :=
  batch.filter (fun r => r.2.1 == req)

/-- The four waves run by `Masher.work`, in program order: for each batch
(important first, then normal) the stable wave then the testing wave. -/
def Masher.workWaves (releases : Groups) : List (List Repo) :=
  [waveUnits (Masher.prioritize_updates releases).1 "stable",
   waveUnits (Masher.prioritize_updates releases).1 "testing",
   waveUnits (Masher.prioritize_updates releases).2 "stable",
   waveUnits (Masher.prioritize_updates releases).2 "testing"]

/-- Coordinator-side scheduling events of `Masher.work`: `thread.start()`
and `thread.join()` calls on a work unit's `MasherThread`. -/
inductive CEvent
  | start (r : Repo)
  | join (r : Repo)
deriving DecidableEq

/-- The events of one wave: all of the wave's threads are started, then
all of them are joined. -/
def waveEvents (w : List Repo) : List CEvent :=
  w.map CEvent.start ++ w.map CEvent.join

/-- The full coordinator event sequence of `Masher.work` in program order. -/
def Masher.coordinatorEvents (releases : Groups) : List CEvent :=
  (Masher.workWaves releases).flatMap waveEvents

/-- The stages of the `MasherThread.work` pipeline, in source order
(`load_updates` runs in both the fresh and the resume path; the rest only
in the fresh path). -/
inductive Stage
  | loadUpdates
  | lockUpdates
  | updateSecurityBugs
  | determineTagActions
  | performTagActions
  | expireBuildrootOverrides
  | removePendingTags
  | updateComps
  | mash
  | generateTestingDigest
  | completeRequests
  | generateUpdateinfo
  | sanityCheckRepo
  | stageRepo
deriving DecidableEq

/-- Observable events of one `MasherThread.work` run: the mashing start
notification, PushState file saves (`save_state`) and removal
(`remove_state`), successful completion of a pipeline stage, and the
completion notification emitted by `finish`. -/
inductive WEv
  | notifyMashing
  | save
  | remove
  | stageDone (s : Stage)
  | notifyComplete (success : Bool)
deriving DecidableEq

/-- Effective failure of a stage.  `fails` is the oracle saying which
stage raises; when the working path is already recorded in
`completed_repos` (`pcomp`), `mash` returns before doing anything that
can raise, so it cannot fail. -/
def effFails (fails : Stage → Bool) (pcomp : Bool) (s : Stage) : Bool :=
  fails s && !(s == Stage.mash && pcomp)

/-- Events contributed by a successfully completed stage.  After
`perform_tag_actions` the worker sets `state['tagged'] = True` and calls
`save_state`; `mash` itself calls `save_state` after a real (non-skipped)
compose. -/
def stageEvents (pcomp : Bool) (s : Stage) : List WEv :=
  match s with
  | Stage.performTagActions => [WEv.stageDone Stage.performTagActions, WEv.save]
  | Stage.mash =>
    if pcomp then [WEv.stageDone Stage.mash]
    else [WEv.save, WEv.stageDone Stage.mash]
  | _ => [WEv.stageDone s]

/-- The stages of the fresh-push (`not self.resume`) branch of
`MasherThread.work`, in source order after `load_updates`. -/
def mainStages : List Stage :=
  [Stage.lockUpdates, Stage.updateSecurityBugs, Stage.determineTagActions,
   Stage.performTagActions, Stage.expireBuildrootOverrides,
   Stage.removePendingTags, Stage.updateComps, Stage.mash,
   Stage.generateTestingDigest, Stage.completeRequests,
   Stage.generateUpdateinfo, Stage.sanityCheckRepo, Stage.stageRepo]

/-- Run the remaining pipeline stages.  If every stage succeeds the
try-block finishes with `remove_state` and `finish(True)`; the first
raising stage aborts into the except-block, which re-persists the state
(`save_state`) and then `finish(False)` runs in the finally-block. -/
def goStages (fails : Stage → Bool) (pcomp : Bool) : List Stage → List WEv
  | [] => [WEv.remove, WEv.notifyComplete true]
  | s :: rest =>
    if effFails fails pcomp s then [WEv.save, WEv.notifyComplete false]
    else stageEvents pcomp s ++ goStages fails pcomp rest

/-- `MasherThread.work` as an event machine.  `resume` is the thread's
resume flag, `fileExists0` whether the PushState file for this tag
identifier already exists, `initPathFails` whether creating the working
directory raises, `fails` the per-stage failure oracle and `pcomp`
whether the working path is already in `completed_repos`.

Returns `(escaped, events)`: `escaped` is true when an exception
propagates out of `work` before the try-block (from `init_state` on a
fresh push with an existing lock file, or from `init_path`), in which
case no notification at all is emitted; otherwise `events` is the run's
event trace.  The resume branch raises `NotImplementedError` after
`load_updates`. -/
def MasherThread.work (resume fileExists0 initPathFails : Bool)
    (fails : Stage → Bool) (pcomp : Bool) : Bool × List WEv :=
  if fileExists0 && !resume then (true, [])
  else if initPathFails then (true, [])
  else
    (false,
      WEv.notifyMashing :: WEv.save ::
        (if fails Stage.loadUpdates then [WEv.save, WEv.notifyComplete false]
         else WEv.stageDone Stage.loadUpdates ::
           (if resume then [WEv.save, WEv.notifyComplete false]
            else goStages fails pcomp mainStages)))

/-- One filesystem step: how an event changes whether the PushState file
exists on disk. -/
def fileStep (b : Bool) : WEv → Bool
  | WEv.save => true
  | WEv.remove => false
  | _ => b

/-- Whether the PushState file exists after a trace of events, starting
from existence state `b`. -/
def fileAfter (b : Bool) (evs : List WEv) : Bool :=
  evs.foldl fileStep b

/-- The PushState record persisted by `save_state`:
`{tagged: bool, updates: [title], completed_repos: [path]}`. -/
structure PushState where
  tagged : Bool
  updates : List String
  completed_repos : List String
deriving DecidableEq

/-- `MasherThread.mash`: if the working path is already recorded in
`completed_repos` the method returns at once (no tool invocation, no
state change); otherwise the comps file must exist (`assert`), the
external mash command must succeed, and on success the path is appended
to `completed_repos` and the state is persisted.  The result is
`some (newState, invokedTool, savedState)`, or `none` when the stage
raises. -/
def MasherThread.mash (st : PushState) (path : String)
    (compsExists cmdOk : Bool) : Option (PushState × Bool × Bool) :=
  if path ∈ st.completed_repos then some (st, false, false)
  else if !compsExists then none
  else if !cmdOk then none
  else some ({ st with completed_repos := st.completed_repos ++ [path] }, true, true)

/-- `MasherThread.load_updates`: re-resolve each persisted title against
the catalog, silently dropping unresolved titles; raise when nothing
resolves. -/
def MasherThread.load_updates (catalog : String → Option Update)
    (stateUpdates : List String) : Option (List Update) :=
  let updates := stateUpdates.filterMap catalog
  if updates = [] then none else some updates

/-- A planned tag mutation: `Add(tag, build)` or
`Move(fromTag, toTag, build)`. -/
inductive TagAction
  | add (tag : String) (nvr : String)
  | move (fromTag : String) (toTag : String) (nvr : String)
deriving DecidableEq

/-- The phase key computed at the top of the per-update loop of
`determine_tag_actions`: testing phase when the update's status is
testing, candidate phase otherwise. -/
def MasherThread.phaseOf (u : Update) : String :=
  if u.status = UpdateStatus.testing then ("testing") else ("candidate")

/-- The per-build body of `determine_tag_actions`: find the build's
current tag (the first of its tag memberships among the configured tags
of the update's phase; raise when none matches), then emit
`Add(requested_tag, nvr)` when the release is pending and the update's
request is stable, else `Move(from_tag, requested_tag, nvr)`. -/
def MasherThread.buildTagAction (tag_types : String → List String)
    (release : Release) (u : Update) (b : Build) : Option TagAction :=
  match b.tags.find? (fun t => (tag_types (MasherThread.phaseOf u)).contains t) with
  | none => none
  | some from_tag =>
    if release.state = ReleaseState.pending ∧ u.request = UpdateRequest.stable then
      some (TagAction.add u.requested_tag b.nvr)
    else
      some (TagAction.move from_tag u.requested_tag b.nvr)

/-- Plan the actions of every build of one update, aborting at the first
build whose current tag cannot be found. -/
def MasherThread.planBuilds (tag_types : String → List String)
    (release : Release) (u : Update) : List Build → Option (List TagAction)
  | [] => some []
  | b :: rest =>
    match MasherThread.buildTagAction tag_types release u b with
    | none => none
    | some a =>
      match MasherThread.planBuilds tag_types release u rest with
      | none => none
      | some acts => some (a :: acts)

/-- Plan the actions of a list of updates in order. -/
def MasherThread.planUpdates (tag_types : String → List String)
    (release : Release) : List Update → Option (List TagAction)
  | [] => some []
  | u :: rest =>
    match MasherThread.planBuilds tag_types release u u.builds with
    | none => none
    | some acts =>
      match MasherThread.planUpdates tag_types release rest with
      | none => none
      | some acts2 => some (acts ++ acts2)

/-- Split planned actions into the two accumulator lists of
`determine_tag_actions`: `add_tags` pairs and `move_tags` triples, in
order. -/
def splitActions : List TagAction → List (String × String) × List (String × String × String)
  | [] => ([], [])
  | TagAction.add t n :: rest =>
    let p := splitActions rest
    ((t, n) :: p.1, p.2)
  | TagAction.move f t n :: rest =>
    let p := splitActions rest
    (p.1, (f, t, n) :: p.2)

/-- `MasherThread.determine_tag_actions`: plan every build of every
update (the update iteration order is the `sorted_updates` order of the
thread's update set, given here as the input list), filling `add_tags`
and `move_tags`; `none` when some build's current tag cannot be found. -/
def MasherThread.determine_tag_actions (tag_types : String → List String)
    (release : Release) (updates : List Update) :
    Option (List (String × String) × List (String × String × String)) :=
  match MasherThread.planUpdates tag_types release updates with
  | none => none
  | some acts => some (splitActions acts)

/-- A directory entry of the inspected architecture directory: its file
name and whether it is a symbolic link. -/
structure DirEntry where
  name : String
  isLink : Bool
deriving DecidableEq

/-- Python's `str.endswith`, on the character lists of the strings. -/
def strEndsWith (s suffix : String) : Bool :=
  suffix.data.isSuffixOf s.data

/-- The symlink check at the end of `MasherThread.sanity_check_repo`:
scan the directory listing; at the first entry whose name ends in
`.rpm`, fail if that entry is a symlink, otherwise stop (`break`).
Returns true when the check passes. -/
def MasherThread.sanity_check_symlinks (entries : List DirEntry) : Bool :=
  match entries.find? (fun e => strEndsWith e.name (".rpm")) with
  | some e => !e.isLink
  | none => true

/-- The event trace of a `MasherThread.work` run. -/
def workEvents (resume fileExists0 initPathFails : Bool)
    (fails : Stage → Bool) (pcomp : Bool) : List WEv :=
  (MasherThread.work resume fileExists0 initPathFails fails pcomp).2

/-- A sample current release. -/
def sampleRelease : Release :=
  { name := "f30", long_name := "Fedora 30", state := ReleaseState.current }

/-- A sample pending release. -/
def pendingRelease : Release :=
  { name := "f31", long_name := "Fedora 31", state := ReleaseState.pending }

/-- A sample build currently tagged into the candidate tag. -/
def sampleBuild : Build :=
  { nvr := "pkg-a-1.0-1.f30", tags := ["f30-updates-candidate"] }

/-- A sample non-security stable-request update. -/
def updA : Update :=
  { title := "pkg-a-1.0-1.f30", release := sampleRelease,
    request := UpdateRequest.stable, status := UpdateStatus.pending,
    type := UpdateType.bugfix, builds := [sampleBuild],
    requested_tag := "f30-updates" }

/-- A sample security testing-request update. -/
def updB : Update :=
  { title := "pkg-b-2.0-1.f30", release := sampleRelease,
    request := UpdateRequest.testing, status := UpdateStatus.pending,
    type := UpdateType.security, builds := [],
    requested_tag := "f30-updates-testing" }

/-- A sample grouping with one stable and one testing work unit. -/
def sampleGroups : Groups :=
  [("f30", [("stable", [updA]), ("testing", [updB])])]

/-- A concrete timestamp assignment for the coordinator events of
`sampleGroups` (testing work units run first there, being important). -/
def time0 : CEvent → ℕ
  | CEvent.start r => if r.2.1 = "testing" then 0 else 4
  | CEvent.join r => if r.2.1 = "testing" then 2 else 6

/-- Concrete worker finish times matching `time0`. -/
def tfinish0 : Repo → ℕ :=
  fun r => if r.2.1 = "testing" then 1 else 5

/-- A configured tag-types table for the sample data. -/
def tagTypes0 : String → List String :=
  fun phase => if phase = "testing" then ["f31-updates-testing"] else ["f31-updates-candidate"]

/-- A build of the pending release, tagged as candidate. -/
def build4 : Build :=
  { nvr := "pkg-c-1.0-1.f31", tags := ["f31-updates-candidate"] }

/-- A stable-request update on the pending release. -/
def upd4 : Update :=
  { title := "pkg-c-1.0-1.f31", release := pendingRelease,
    request := UpdateRequest.stable, status := UpdateStatus.pending,
    type := UpdateType.bugfix, builds := [build4], requested_tag := "f31" }

/-- A catalog resolving exactly the title of `updA`. -/
def dupCatalog : String → Option Update :=
  fun t => if t = "pkg-a-1.0-1.f30" then some updA else none

/-- A PushState whose completed_repos already records a working path. -/
def mashState0 : PushState :=
  { tagged := true, updates := ["pkg-a-1.0-1.f30"],
    completed_repos := ["/mash/f30-updates-250101.0101"] }

/-- The oracle where no pipeline stage raises. -/
def noFails : Stage → Bool := fun _ => false

/-- The oracle where exactly `lock_updates` raises. -/
def lockFails : Stage → Bool := fun s => s == Stage.lockUpdates

/-- A real package file followed by a symlinked package file. -/
def symEntryA : DirEntry := { name := "a.rpm", isLink := false }

/-- A symlinked package file that the sanity check never reaches. -/
def symEntryB : DirEntry := { name := "b.rpm", isLink := true }

theorem lookupReq_addToReq (reqs : List (String × List Update)) (req q : String) (u : Update) :
    lookupReq (addToReq reqs req u) q =
      if req = q then lookupReq reqs q ++ [u] else lookupReq reqs q := by
  induction reqs with
  | nil => by_cases h : req = q <;> simp [addToReq, lookupReq, h]
  | cons head rest ih =>
    obtain ⟨r, us⟩ := head
    by_cases hr : r = req
    · by_cases hq : r = q
      · have hreq : req = q := hr.symm.trans hq
        simp [addToReq, lookupReq, hr, hq, hreq]
      · have hreq : ¬req = q := fun h => hq (hr.trans h)
        simp [addToReq, lookupReq, hr, hq, hreq]
    · by_cases hq : r = q
      · have hreq : ¬req = q := fun h => hr (hq.trans h.symm)
        have hqr : ¬q = req := fun h => hreq (Eq.symm h)
        simp [addToReq, lookupReq, hr, hq, hreq, hqr]
      · simp [addToReq, lookupReq, hr, hq, ih]

theorem lookupCell_addToGroups (gs : Groups) (rel req r q : String) (u : Update) :
    lookupCell (addToGroups gs rel req u) r q =
      if rel = r ∧ req = q then lookupCell gs r q ++ [u] else lookupCell gs r q := by
  induction gs with
  | nil =>
    by_cases hr : rel = r
    · by_cases hq : req = q <;> simp [addToGroups, lookupCell, lookupReq, hr, hq]
    · simp [addToGroups, lookupCell, hr]
  | cons head rest ih =>
    obtain ⟨rn, reqs⟩ := head
    by_cases hn : rn = rel
    · by_cases hr : rn = r
      · have hrel : rel = r := hn.symm.trans hr
        simp [addToGroups, lookupCell, hn, hr, hrel, lookupReq_addToReq]
      · have hrel : ¬rel = r := fun h => hr (hn.trans h)
        simp [addToGroups, lookupCell, hn, hr, hrel]
    · by_cases hr : rn = r
      · have hrel : ¬rel = r := fun h => hn (hr.trans h.symm)
        have hrrel : ¬r = rel := fun h => hrel (Eq.symm h)
        simp [addToGroups, lookupCell, hn, hr, hrel, hrrel]
      · simp [addToGroups, lookupCell, hn, hr, ih]

theorem organize_go (catalog : String → Option Update) (titles : List String)
    (gs : Groups) (r q : String) :
    lookupCell
      (titles.foldl
        (fun gs title =>
          match catalog title with
          | some u => addToGroups gs u.release.name u.request.value u
          | none => gs)
        gs) r q
    = lookupCell gs r q ++
        ((titles.filterMap catalog).filter
          (fun u => u.release.name == r && u.request.value == q)) := by
  induction titles generalizing gs with
  | nil => simp
  | cons t ts ih =>
    simp only [List.foldl_cons, List.filterMap_cons]
    cases h : catalog t with
    | none => simp [ih]
    | some u =>
      simp only [List.filter_cons]
      rw [ih, lookupCell_addToGroups]
      by_cases hk : u.release.name = r ∧ u.request.value = q
      · have hb : (u.release.name == r && u.request.value == q) = true := by
          simp [hk.1, hk.2]
        simp [hk, hb, List.append_assoc]
      · have hb : (u.release.name == r && u.request.value == q) = false := by
          rcases not_and_or.mp hk with h1 | h1 <;> simp [h1]
        simp [hk, hb]

/-- C7: grouping is total — for every catalog and inbound title list, the
cell of the nested grouping dictionary at keys `(rel, req)` holds exactly
the resolvable titles' updates whose `(release.name, request.value)` pair
is `(rel, req)`, in inbound order; unresolvable titles are skipped without
aborting.  Hence every resolvable title lands in exactly one work-unit
cell, the one keyed by its update's release and request. -/
theorem masher_organize_updates_grouping (catalog : String → Option Update)
    (titles : List String) (rel req : String) :
    lookupCell (Masher.organize_updates catalog titles) rel req =
      (titles.filterMap catalog).filter
        (fun u => u.release.name == rel && u.request.value == req) := by
  unfold Masher.organize_updates
  simpa using organize_go catalog titles [] rel req

/-- C10: a push message naming the same resolvable title twice yields a
work unit whose update list holds the update twice: the grouping cell has
two copies, the title list handed to the worker (and persisted in its
PushState) repeats the title, and `load_updates` resolves it into a
two-element update list, so every per-update stage iterates it twice. -/
theorem masher_duplicate_titles :
    lookupCell
        (Masher.organize_updates dupCatalog ["pkg-a-1.0-1.f30", "pkg-a-1.0-1.f30"])
        ("f30") ("stable") = [updA, updA]
    ∧ (lookupCell
        (Masher.organize_updates dupCatalog ["pkg-a-1.0-1.f30", "pkg-a-1.0-1.f30"])
        ("f30") ("stable")).map Update.title
        = ["pkg-a-1.0-1.f30", "pkg-a-1.0-1.f30"]
    ∧ MasherThread.load_updates dupCatalog ["pkg-a-1.0-1.f30", "pkg-a-1.0-1.f30"]
        = some [updA, updA] := by
  refine ⟨?_, ?_, ?_⟩ <;> rfl

/-- C8 counterexample: a directory listing whose first rpm entry is a
real file followed by a symlinked rpm passes the symlink sanity check
even though some package file is a symbolic link — the claim that the
check fails whenever any package file is a symlink is false on the code,
because the loop breaks after the first rpm entry. -/
theorem sanity_check_symlinks_counterexample :
    MasherThread.sanity_check_symlinks [symEntryA, symEntryB] = true
    ∧ symEntryB ∈ [symEntryA, symEntryB]
    ∧ strEndsWith symEntryB.name (".rpm") = true
    ∧ symEntryB.isLink = true := by
  refine ⟨?_, ?_, ?_, ?_⟩ <;> decide

/-- C8 (amended): the symlink part of `sanity_check_repo` inspects only
the first directory entry whose name ends in .rpm: it fails iff that
first rpm entry is a symbolic link.  In particular, when no package file
is a symlink the check passes; but a symlinked rpm listed behind a real
first rpm is not detected. -/
theorem sanity_check_symlinks_first_rpm_only (entries : List DirEntry) :
    (MasherThread.sanity_check_symlinks entries = false ↔
      ∃ e, entries.find? (fun e => strEndsWith e.name (".rpm")) = some e ∧ e.isLink = true)
    ∧ ((∀ e ∈ entries, strEndsWith e.name (".rpm") = true → e.isLink = false) →
      MasherThread.sanity_check_symlinks entries = true) := by
  constructor
  · unfold MasherThread.sanity_check_symlinks
    cases h : entries.find? (fun e => strEndsWith e.name (".rpm")) with
    | none => simp
    | some e => simp [h]
  · intro hall
    unfold MasherThread.sanity_check_symlinks
    cases h : entries.find? (fun e => strEndsWith e.name (".rpm")) with
    | none => rfl
    | some e =>
      have hmem := List.mem_of_find?_eq_some h
      have hpred := List.find?_some h
      have hl := hall e hmem hpred
      simp [hl]

theorem sanity_check_symlinks_first_rpm_only_witness :
    (MasherThread.sanity_check_symlinks [symEntryB] = false ↔
      ∃ e, [symEntryB].find? (fun e => strEndsWith e.name (".rpm")) = some e ∧ e.isLink = true)
    ∧ ((∀ e ∈ [symEntryB], strEndsWith e.name (".rpm") = true → e.isLink = false) →
      MasherThread.sanity_check_symlinks [symEntryB] = true) :=
  sanity_check_symlinks_first_rpm_only [symEntryB]

/-- C6: `mash` is idempotent on completed paths — when the working path
is already in `completed_repos` it returns at once with no tool
invocation and no state change; when it is not and the stage succeeds,
the tool is invoked, the path is appended to `completed_repos` and the
state is persisted, the other fields unchanged. -/
theorem masherThread_mash_idempotent (st : PushState) (path : String)
    (compsExists cmdOk : Bool) :
    (path ∈ st.completed_repos →
      MasherThread.mash st path compsExists cmdOk = some (st, false, false))
    ∧ (path ∉ st.completed_repos →
      ∀ st' inv sv, MasherThread.mash st path compsExists cmdOk = some (st', inv, sv) →
        inv = true ∧ sv = true ∧ st'.tagged = st.tagged ∧ st'.updates = st.updates
          ∧ st'.completed_repos = st.completed_repos ++ [path]) := by
  constructor
  · intro h
    simp [MasherThread.mash, h]
  · intro h st' inv sv hm
    cases compsExists <;> cases cmdOk <;> simp [MasherThread.mash, h] at hm
    obtain ⟨h1, h2, h3⟩ := hm
    subst h1
    subst h2
    subst h3
    exact ⟨rfl, rfl, rfl, rfl, rfl⟩

theorem masherThread_mash_idempotent_witness :
    ("/mash/f30-updates-250101.0101" : String) ∈ mashState0.completed_repos
    ∧ MasherThread.mash mashState0 ("/mash/f30-updates-250101.0101") true true
        = some (mashState0, false, false) := by
  have hm : ("/mash/f30-updates-250101.0101" : String) ∈ mashState0.completed_repos := by
    simp [mashState0]
  exact ⟨hm,
    (masherThread_mash_idempotent mashState0 ("/mash/f30-updates-250101.0101") true true).1 hm⟩

/-- C5: a fresh (non-resume) run whose tag identifier already has a state
file raises inside `init_state`, before the try-block: the thread escapes
with no events at all — no update is locked, no tag action stage runs,
nothing is saved over the pre-existing state file, which stays on disk. -/
theorem masherThread_fresh_push_conflict (initPathFails : Bool)
    (fails : Stage → Bool) (pcomp : Bool) :
    MasherThread.work false true initPathFails fails pcomp = (true, [])
    ∧ WEv.save ∉ workEvents false true initPathFails fails pcomp
    ∧ WEv.stageDone Stage.lockUpdates ∉ workEvents false true initPathFails fails pcomp
    ∧ WEv.stageDone Stage.performTagActions ∉ workEvents false true initPathFails fails pcomp
    ∧ fileAfter true (workEvents false true initPathFails fails pcomp) = true := by
  refine ⟨rfl, ?_, ?_, ?_, rfl⟩ <;> simp [workEvents, MasherThread.work]

theorem masherThread_fresh_push_conflict_witness :
    MasherThread.work false true false noFails false = (true, [])
    ∧ WEv.save ∉ workEvents false true false noFails false
    ∧ WEv.stageDone Stage.lockUpdates ∉ workEvents false true false noFails false
    ∧ WEv.stageDone Stage.performTagActions ∉ workEvents false true false noFails false
    ∧ fileAfter true (workEvents false true false noFails false) = true :=
  masherThread_fresh_push_conflict false noFails false

theorem prioritize_go (units : List Repo) (acc : List Repo × List Repo) :
    units.foldl
      (fun acc r =>
        if containsSecurity r.2.2 then (acc.1 ++ [r], acc.2) else (acc.1, acc.2 ++ [r]))
      acc
    = (acc.1 ++ units.filter (fun r => containsSecurity r.2.2),
       acc.2 ++ units.filter (fun r => !containsSecurity r.2.2)) := by
  induction units generalizing acc with
  | nil => simp
  | cons r rest ih =>
    simp only [List.foldl_cons, List.filter_cons]
    cases h : containsSecurity r.2.2 with
    | false => simp [h, ih]
    | true => simp [h, ih]

/-- C3: prioritization is a partition — a work unit lands in the
important batch iff it is one of the enumerated work units and some of
its updates is security-classified, in the normal batch iff it has no
security update; no work unit is in both.  Importance is monotone: a
batch already important stays important when an update is added, and
adding a security update always makes the batch important. -/
theorem masher_prioritize_partition (releases : Groups) (r : Repo) :
    (r ∈ (Masher.prioritize_updates releases).1 ↔
      r ∈ Masher.workUnits releases ∧ containsSecurity r.2.2 = true)
    ∧ (r ∈ (Masher.prioritize_updates releases).2 ↔
      r ∈ Masher.workUnits releases ∧ containsSecurity r.2.2 = false)
    ∧ ¬(r ∈ (Masher.prioritize_updates releases).1 ∧ r ∈ (Masher.prioritize_updates releases).2)
    ∧ (∀ (us : List Update) (u : Update),
        containsSecurity us = true → containsSecurity (us ++ [u]) = true)
    ∧ (∀ (us : List Update) (u : Update), u.type = UpdateType.security →
        containsSecurity (us ++ [u]) = true) := by
  have hp : Masher.prioritize_updates releases =
      ((Masher.workUnits releases).filter (fun r => containsSecurity r.2.2),
       (Masher.workUnits releases).filter (fun r => !containsSecurity r.2.2)) := by
    unfold Masher.prioritize_updates
    rw [prioritize_go]
    simp
  refine ⟨?_, ?_, ?_, ?_, ?_⟩
  · rw [hp]
    simp [List.mem_filter]
  · rw [hp]
    simp [List.mem_filter]
  · rw [hp]
    rintro ⟨h1, h2⟩
    have hs1 := (List.mem_filter.mp h1).2
    have hs2 := (List.mem_filter.mp h2).2
    rw [hs1] at hs2
    simp at hs2
  · intro us u h
    unfold containsSecurity at h ⊢
    simp [List.any_append, h]
  · intro us u h
    unfold containsSecurity
    simp [List.any_append, h]

theorem masher_prioritize_partition_witness :
    (("f30", "testing", [updB]) ∈ (Masher.prioritize_updates sampleGroups).1 ↔
      ("f30", "testing", [updB]) ∈ Masher.workUnits sampleGroups
        ∧ containsSecurity [updB] = true)
    ∧ (("f30", "testing", [updB]) ∈ (Masher.prioritize_updates sampleGroups).2 ↔
      ("f30", "testing", [updB]) ∈ Masher.workUnits sampleGroups
        ∧ containsSecurity [updB] = false)
    ∧ ¬(("f30", "testing", [updB]) ∈ (Masher.prioritize_updates sampleGroups).1
        ∧ ("f30", "testing", [updB]) ∈ (Masher.prioritize_updates sampleGroups).2)
    ∧ (∀ (us : List Update) (u : Update),
        containsSecurity us = true → containsSecurity (us ++ [u]) = true)
    ∧ (∀ (us : List Update) (u : Update), u.type = UpdateType.security →
        containsSecurity (us ++ [u]) = true) :=
  masher_prioritize_partition sampleGroups ("f30", "testing", [updB])

theorem planBuilds_eq_none_iff (tag_types : String → List String)
    (release : Release) (u : Update) (bs : List Build) :
    MasherThread.planBuilds tag_types release u bs = none ↔
      ∃ b ∈ bs, MasherThread.buildTagAction tag_types release u b = none := by
  induction bs with
  | nil => simp [MasherThread.planBuilds]
  | cons b rest ih =>
    simp only [MasherThread.planBuilds]
    cases h : MasherThread.buildTagAction tag_types release u b with
    | none => simp [h]
    | some a =>
      cases h2 : MasherThread.planBuilds tag_types release u rest with
      | none =>
        simp only [h2]
        simp [h, ih.mp h2]
      | some acts =>
        have hr := ih.not.mp (by simp [h2])
        simp only [h2]
        simp [h]
        intro b2 hb2
        by_contra hc
        exact hr ⟨b2, hb2, hc⟩

theorem planUpdates_eq_none_iff (tag_types : String → List String)
    (release : Release) (us : List Update) :
    MasherThread.planUpdates tag_types release us = none ↔
      ∃ u ∈ us, MasherThread.planBuilds tag_types release u u.builds = none := by
  induction us with
  | nil => simp [MasherThread.planUpdates]
  | cons u rest ih =>
    simp only [MasherThread.planUpdates]
    cases h : MasherThread.planBuilds tag_types release u u.builds with
    | none => simp [h]
    | some acts =>
      cases h2 : MasherThread.planUpdates tag_types release rest with
      | none =>
        simp only [h2]
        simp [h, ih.mp h2]
      | some acts2 =>
        have hr := ih.not.mp (by simp [h2])
        simp only [h2]
        simp [h]
        intro u2 hu2
        by_contra hc
        exact hr ⟨u2, hu2, hc⟩

/-- C4: the tag-action planner.  For every update and build: when the
build's current tag is found (the first of its tag memberships among the
configured tags of the update's phase — testing phase iff the update's
status is testing, candidate otherwise), the planner emits
`Add(requested_tag, nvr)` iff the release is pending and the update's
request is stable, and `Move(currentTag, requested_tag, nvr)` otherwise;
it raises iff no membership matches, and `determine_tag_actions` fails
exactly when some build of some update has no matching membership. -/
theorem masherThread_tag_action_planner (tag_types : String → List String)
    (release : Release) (u : Update) (b : Build) (updates : List Update) :
    (∀ ft, b.tags.find? (fun t => (tag_types (MasherThread.phaseOf u)).contains t) = some ft →
      MasherThread.buildTagAction tag_types release u b =
        some (if release.state = ReleaseState.pending ∧ u.request = UpdateRequest.stable
              then TagAction.add u.requested_tag b.nvr
              else TagAction.move ft u.requested_tag b.nvr))
    ∧ (MasherThread.buildTagAction tag_types release u b = none ↔
      b.tags.find? (fun t => (tag_types (MasherThread.phaseOf u)).contains t) = none)
    ∧ (∀ a, MasherThread.buildTagAction tag_types release u b = some a →
      ((∃ t n, a = TagAction.add t n) ↔
        (release.state = ReleaseState.pending ∧ u.request = UpdateRequest.stable)))
    ∧ (MasherThread.determine_tag_actions tag_types release updates = none ↔
      ∃ u2 ∈ updates, ∃ b2 ∈ u2.builds,
        MasherThread.buildTagAction tag_types release u2 b2 = none) := by
  refine ⟨?_, ?_, ?_, ?_⟩
  · intro ft hft
    unfold MasherThread.buildTagAction
    rw [hft]
    by_cases hc : release.state = ReleaseState.pending ∧ u.request = UpdateRequest.stable <;>
      simp [hc]
  · unfold MasherThread.buildTagAction
    cases hft : b.tags.find? (fun t => (tag_types (MasherThread.phaseOf u)).contains t) with
    | none => simp
    | some ft =>
      by_cases hc : release.state = ReleaseState.pending ∧ u.request = UpdateRequest.stable <;>
        simp [hc]
  · intro a ha
    unfold MasherThread.buildTagAction at ha
    cases hft : b.tags.find? (fun t => (tag_types (MasherThread.phaseOf u)).contains t) with
    | none => rw [hft] at ha; exact absurd ha (by simp)
    | some ft =>
      rw [hft] at ha
      by_cases hc : release.state = ReleaseState.pending ∧ u.request = UpdateRequest.stable
      · simp [hc] at ha
        subst ha
        simp [hc]
      · simp [hc] at ha
        subst ha
        simp [hc]
  · unfold MasherThread.determine_tag_actions
    cases hp : MasherThread.planUpdates tag_types release updates with
    | none =>
      simp only [hp]
      have := (planUpdates_eq_none_iff tag_types release updates).mp hp
      obtain ⟨u2, hu2, hb⟩ := this
      have := (planBuilds_eq_none_iff tag_types release u2 u2.builds).mp hb
      obtain ⟨b2, hb2, hact⟩ := this
      simp
      exact ⟨u2, hu2, b2, hb2, hact⟩
    | some acts =>
      simp only [hp]
      have hne := (planUpdates_eq_none_iff tag_types release updates).not.mp (by simp [hp])
      simp
      intro u2 hu2 b2 hb2 hact
      exact hne ⟨u2, hu2, (planBuilds_eq_none_iff tag_types release u2 u2.builds).mpr ⟨b2, hb2, hact⟩⟩

theorem masherThread_tag_action_planner_witness :
    (∀ ft, build4.tags.find?
        (fun t => (tagTypes0 (MasherThread.phaseOf upd4)).contains t) = some ft →
      MasherThread.buildTagAction tagTypes0 pendingRelease upd4 build4 =
        some (if pendingRelease.state = ReleaseState.pending ∧ upd4.request = UpdateRequest.stable
              then TagAction.add upd4.requested_tag build4.nvr
              else TagAction.move ft upd4.requested_tag build4.nvr))
    ∧ (MasherThread.buildTagAction tagTypes0 pendingRelease upd4 build4 = none ↔
      build4.tags.find?
        (fun t => (tagTypes0 (MasherThread.phaseOf upd4)).contains t) = none)
    ∧ (∀ a, MasherThread.buildTagAction tagTypes0 pendingRelease upd4 build4 = some a →
      ((∃ t n, a = TagAction.add t n) ↔
        (pendingRelease.state = ReleaseState.pending ∧ upd4.request = UpdateRequest.stable)))
    ∧ (MasherThread.determine_tag_actions tagTypes0 pendingRelease [upd4] = none ↔
      ∃ u2 ∈ [upd4], ∃ b2 ∈ u2.builds,
        MasherThread.buildTagAction tagTypes0 pendingRelease u2 b2 = none) :=
  masherThread_tag_action_planner tagTypes0 pendingRelease upd4 build4 [upd4]

theorem pairwise_flatMap_cross {R : CEvent → CEvent → Prop} :
    ∀ (ws : List (List Repo)), (ws.flatMap waveEvents).Pairwise R →
    ∀ i j (hi : i < ws.length) (hj : j < ws.length), i < j →
    ∀ a ∈ waveEvents (ws.get ⟨i, hi⟩), ∀ b ∈ waveEvents (ws.get ⟨j, hj⟩), R a b := by
  intro ws
  induction ws with
  | nil =>
    intro _ i j hi
    exact absurd hi (by simp)
  | cons w rest ih =>
    intro h i j hi hj hij a ha b hb
    rw [List.flatMap_cons] at h
    have hsplit := List.pairwise_append.mp h
    cases i with
    | zero =>
      cases j with
      | zero => omega
      | succ j2 =>
        apply hsplit.2.2 a ha
        apply List.mem_flatMap.mpr
        refine ⟨rest.get ⟨j2, by simpa using hj⟩, List.get_mem rest j2 _, hb⟩
    | succ i2 =>
      cases j with
      | zero => omega
      | succ j2 =>
        exact ih hsplit.2.1 i2 j2 (by simpa using hi) (by simpa using hj)
          (by omega) a ha b hb

theorem waveEvents_sublist (ws : List (List Repo)) (w : List Repo) (hw : w ∈ ws) :
    (waveEvents w).Sublist (ws.flatMap waveEvents) := by
  induction ws with
  | nil => cases hw
  | cons w0 rest ih =>
    rw [List.flatMap_cons]
    rcases List.mem_cons.mp hw with h | h
    · subst h
      exact List.sublist_append_left _ _
    · exact (ih h).trans (List.sublist_append_right _ _)

theorem pairwise_wave_within {R : CEvent → CEvent → Prop} (ws : List (List Repo))
    (h : (ws.flatMap waveEvents).Pairwise R)
    (i : ℕ) (hi : i < ws.length) :
    ∀ u ∈ ws.get ⟨i, hi⟩, ∀ v ∈ ws.get ⟨i, hi⟩, R (CEvent.start u) (CEvent.join v) := by
  intro u hu v hv
  have hsub := waveEvents_sublist ws (ws.get ⟨i, hi⟩) (List.get_mem ws i hi)
  have hpair := h.sublist hsub
  unfold waveEvents at hpair
  rcases List.pairwise_append.mp hpair with ⟨_, _, hcross⟩
  exact hcross _ (List.mem_map_of_mem CEvent.start hu) _ (List.mem_map_of_mem CEvent.join hv)

/-- C2: the coordinator's wave ordering.  `Masher.work` runs the four
waves in the fixed order: important-stable, important-testing,
normal-stable, normal-testing.  When the coordinator's start/join events
occur in program order (`horder`) and every worker finishes after its
start and before its join returns (`hrun`), every work unit of an
earlier wave finishes before any work unit of a later wave starts
(join-barrier between consecutive waves), while work units of the same
wave are all started before the coordinator joins any of them
(concurrent execution within a wave). -/
theorem masher_wave_barrier (releases : Groups) (time : CEvent → ℕ) (tfinish : Repo → ℕ)
    (horder : (Masher.coordinatorEvents releases).Pairwise (fun a b => time a < time b))
    (hrun : ∀ r : Repo, time (CEvent.start r) < tfinish r ∧ tfinish r < time (CEvent.join r)) :
    (∀ i j (hi : i < (Masher.workWaves releases).length)
        (hj : j < (Masher.workWaves releases).length), i < j →
      ∀ u ∈ (Masher.workWaves releases).get ⟨i, hi⟩,
      ∀ v ∈ (Masher.workWaves releases).get ⟨j, hj⟩,
        tfinish u < time (CEvent.start v))
    ∧ (∀ i (hi : i < (Masher.workWaves releases).length),
      ∀ u ∈ (Masher.workWaves releases).get ⟨i, hi⟩,
      ∀ v ∈ (Masher.workWaves releases).get ⟨i, hi⟩,
        time (CEvent.start u) < time (CEvent.join v)) := by
  have horder2 : ((Masher.workWaves releases).flatMap waveEvents).Pairwise
      (fun a b => time a < time b) := horder
  constructor
  · intro i j hi hj hij u hu v hv
    have hjoin : CEvent.join u ∈ waveEvents ((Masher.workWaves releases).get ⟨i, hi⟩) := by
      unfold waveEvents
      exact List.mem_append_right _ (List.mem_map_of_mem CEvent.join hu)
    have hstart : CEvent.start v ∈ waveEvents ((Masher.workWaves releases).get ⟨j, hj⟩) := by
      unfold waveEvents
      exact List.mem_append_left _ (List.mem_map_of_mem CEvent.start hv)
    have hlt := pairwise_flatMap_cross (Masher.workWaves releases) horder2 i j hi hj hij
      (CEvent.join u) hjoin (CEvent.start v) hstart
    have hu2 := (hrun u).2
    omega
  · intro i hi u hu v hv
    exact pairwise_wave_within (Masher.workWaves releases) horder2 i hi u hu v hv

theorem masher_wave_barrier_witness :
    (∀ i j (hi : i < (Masher.workWaves sampleGroups).length)
        (hj : j < (Masher.workWaves sampleGroups).length), i < j →
      ∀ u ∈ (Masher.workWaves sampleGroups).get ⟨i, hi⟩,
      ∀ v ∈ (Masher.workWaves sampleGroups).get ⟨j, hj⟩,
        tfinish0 u < time0 (CEvent.start v))
    ∧ (∀ i (hi : i < (Masher.workWaves sampleGroups).length),
      ∀ u ∈ (Masher.workWaves sampleGroups).get ⟨i, hi⟩,
      ∀ v ∈ (Masher.workWaves sampleGroups).get ⟨i, hi⟩,
        time0 (CEvent.start u) < time0 (CEvent.join v)) :=
  masher_wave_barrier sampleGroups time0 tfinish0
    (by decide)
    (by
      intro r
      unfold time0 tfinish0
      by_cases h : r.2.1 = "testing" <;> simp [h])

theorem fileAfter_cons (b : Bool) (e : WEv) (evs : List WEv) :
    fileAfter b (e :: evs) = fileAfter (fileStep b e) evs := rfl

theorem fileAfter_append (b : Bool) (l1 l2 : List WEv) :
    fileAfter b (l1 ++ l2) = fileAfter (fileAfter b l1) l2 := by
  unfold fileAfter
  rw [List.foldl_append]

theorem fileAfter_true_of_not_remove (evs : List WEv) (h : WEv.remove ∉ evs) :
    fileAfter true evs = true := by
  induction evs with
  | nil => rfl
  | cons e rest ih =>
    have he : e ≠ WEv.remove := fun hh => h (hh ▸ List.mem_cons_self e rest)
    have hrest : WEv.remove ∉ rest := fun hh => h (List.mem_cons_of_mem e hh)
    have hstep : fileStep true e = true := by
      cases e <;> first | rfl | exact absurd rfl he
    rw [fileAfter_cons, hstep]
    exact ih hrest

theorem stageEvents_not_remove (pcomp : Bool) (s : Stage) :
    WEv.remove ∉ stageEvents pcomp s := by
  cases s <;> cases pcomp <;> simp [stageEvents]

theorem stageEvents_stageDone_mem (pcomp : Bool) (s : Stage) :
    WEv.stageDone s ∈ stageEvents pcomp s := by
  cases s <;> cases pcomp <;> simp [stageEvents]

theorem stageEvents_mem_shape (pcomp : Bool) (s : Stage) :
    ∀ e ∈ stageEvents pcomp s, e = WEv.save ∨ e = WEv.stageDone s := by
  cases s <;> cases pcomp <;> simp [stageEvents]

theorem goStages_length (fails : Stage → Bool) (pcomp : Bool) (l : List Stage) :
    2 ≤ (goStages fails pcomp l).length := by
  induction l with
  | nil => simp [goStages]
  | cons s rest ih =>
    simp only [goStages]
    cases h : effFails fails pcomp s with
    | true => simp [h]
    | false =>
      simp [h, List.length_append]
      omega

theorem goStages_take_not_remove (fails : Stage → Bool) (pcomp : Bool) :
    ∀ (l : List Stage) (k : ℕ), k + 1 < (goStages fails pcomp l).length →
      WEv.remove ∉ (goStages fails pcomp l).take k := by
  intro l
  induction l with
  | nil =>
    intro k hk
    simp [goStages] at hk
    have hk0 : k = 0 := by omega
    subst hk0
    simp
  | cons s rest ih =>
    intro k hk
    simp only [goStages] at hk ⊢
    cases h : effFails fails pcomp s with
    | true =>
      simp [h] at hk ⊢
      have hk0 : k = 0 := by omega
      subst hk0
      simp
    | false =>
      simp only [h] at hk ⊢
      simp only [Bool.false_eq_true, if_false] at hk ⊢
      rw [List.length_append] at hk
      rw [List.take_append_eq_append_take]
      intro hmem
      rcases List.mem_append.mp hmem with h1 | h1
      · exact stageEvents_not_remove pcomp s (List.mem_of_mem_take h1)
      · have hlen : (k - (stageEvents pcomp s).length) + 1
            < (goStages fails pcomp rest).length := by
          have h2 := goStages_length fails pcomp rest
          omega
        exact ih (k - (stageEvents pcomp s).length) hlen h1

theorem goStages_fileAfter_iff (fails : Stage → Bool) (pcomp : Bool) (l : List Stage) :
    fileAfter true (goStages fails pcomp l) = false ↔
      ∀ s ∈ l, effFails fails pcomp s = false := by
  induction l with
  | nil =>
    have h0 : fileAfter true (goStages fails pcomp ([] : List Stage)) = false := rfl
    simp [h0]
  | cons s rest ih =>
    simp only [goStages]
    cases h : effFails fails pcomp s with
    | true =>
      have h1 : fileAfter true [WEv.save, WEv.notifyComplete false] = true := rfl
      simp [h, h1]
    | false =>
      have h1 : fileAfter true (stageEvents pcomp s ++ goStages fails pcomp rest)
          = fileAfter true (goStages fails pcomp rest) := by
        rw [fileAfter_append,
          fileAfter_true_of_not_remove (stageEvents pcomp s) (stageEvents_not_remove pcomp s)]
      simp [h, h1, ih]

theorem goStages_remove_mem_iff (fails : Stage → Bool) (pcomp : Bool) (l : List Stage) :
    WEv.remove ∈ goStages fails pcomp l ↔ ∀ s ∈ l, effFails fails pcomp s = false := by
  induction l with
  | nil => simp [goStages]
  | cons s rest ih =>
    simp only [goStages]
    cases h : effFails fails pcomp s with
    | true => simp [h]
    | false =>
      have h2 := stageEvents_not_remove pcomp s
      simp [h, h2, ih]

theorem goStages_stageDone_not_mem (fails : Stage → Bool) (pcomp : Bool) (s2 : Stage) :
    ∀ l : List Stage, s2 ∉ l → WEv.stageDone s2 ∉ goStages fails pcomp l := by
  intro l
  induction l with
  | nil =>
    intro _
    simp [goStages]
  | cons s rest ih =>
    intro hnot
    have hne : s2 ≠ s := fun hh => hnot (hh ▸ List.mem_cons_self s rest)
    have hrest : s2 ∉ rest := fun hh => hnot (List.mem_cons_of_mem s hh)
    simp only [goStages]
    cases h : effFails fails pcomp s with
    | true => simp [h]
    | false =>
      simp only [h, Bool.false_eq_true, if_false]
      intro hmem
      rcases List.mem_append.mp hmem with h1 | h1
      · rcases stageEvents_mem_shape pcomp s _ h1 with h2 | h2
        · exact WEv.noConfusion h2
        · exact hne (WEv.stageDone.inj h2)
      · exact ih hrest h1

theorem goStages_stageDone_iff (fails : Stage → Bool) (pcomp : Bool) :
    ∀ l : List Stage, l.Nodup →
      ((∀ s ∈ l, WEv.stageDone s ∈ goStages fails pcomp l) ↔
        ∀ s ∈ l, effFails fails pcomp s = false) := by
  intro l
  induction l with
  | nil =>
    intro _
    simp
  | cons s rest ih =>
    intro hnd
    rcases List.nodup_cons.mp hnd with ⟨hs, hrest⟩
    constructor
    · intro hall
      cases h : effFails fails pcomp s with
      | true =>
        exfalso
        have hx := hall s (List.mem_cons_self s rest)
        simp only [goStages, h] at hx
        simp at hx
      | false =>
        have hgoall : ∀ s2 ∈ rest, WEv.stageDone s2 ∈ goStages fails pcomp rest := by
          intro s2 h2
          have hmem := hall s2 (List.mem_cons_of_mem s h2)
          simp only [goStages, h, Bool.false_eq_true, if_false] at hmem
          have hne : s2 ≠ s := fun hh => hs (hh ▸ h2)
          rcases List.mem_append.mp hmem with h1 | h1
          · rcases stageEvents_mem_shape pcomp s _ h1 with hx | hx
            · exact absurd hx (by simp)
            · exact absurd (WEv.stageDone.inj hx) hne
          · exact h1
        intro s2 hs2
        rcases List.mem_cons.mp hs2 with rfl | h2
        · exact h
        · exact ((ih hrest).mp hgoall) s2 h2
    · intro hall s2 hs2
      have h : effFails fails pcomp s = false := hall s (List.mem_cons_self s rest)
      simp only [goStages, h, Bool.false_eq_true, if_false]
      rcases List.mem_cons.mp hs2 with rfl | h2
      · exact List.mem_append.mpr (Or.inl (stageEvents_stageDone_mem pcomp s2))
      · have hx := ((ih hrest).mpr (fun x hx => hall x (List.mem_cons_of_mem s hx))) s2 h2
        exact List.mem_append.mpr (Or.inr hx)

theorem goStages_fail_suffix (fails : Stage → Bool) (pcomp : Bool) :
    ∀ l : List Stage, (∃ s ∈ l, effFails fails pcomp s = true) →
      ∃ pre, goStages fails pcomp l = pre ++ [WEv.save, WEv.notifyComplete false] := by
  intro l
  induction l with
  | nil =>
    rintro ⟨s, hs, _⟩
    cases hs
  | cons s rest ih =>
    rintro ⟨s2, hs2, hf⟩
    cases h : effFails fails pcomp s with
    | true =>
      refine ⟨[], ?_⟩
      simp [goStages, h]
    | false =>
      have h2 : s2 ∈ rest := by
        rcases List.mem_cons.mp hs2 with rfl | hh
        · exact absurd hf (by simp [h])
        · exact hh
      obtain ⟨pre, hpre⟩ := ih ⟨s2, h2, hf⟩
      refine ⟨stageEvents pcomp s ++ pre, ?_⟩
      simp [goStages, h, hpre, List.append_assoc]

theorem mainStages_nodup : mainStages.Nodup := by decide

theorem loadUpdates_not_mem_main : Stage.loadUpdates ∉ mainStages := by decide

theorem stage_cover (s : Stage) : s = Stage.loadUpdates ∨ s ∈ mainStages := by
  cases s <;> simp [mainStages]

/-- C1: the PushState file lifecycle of a worker run that passes
`init_state`/`init_path`.  The run does not escape; its second event is
the initial persist; from that persist on, the file exists after every
proper prefix of the run; at the run's end the file is absent iff the run
completed every pipeline stage; the deletion event occurs iff the run is
a fresh one in which no stage raised (i.e. it reached `stage_repo`
successfully); and on any failure from the try-block onward the trace
ends with a re-persist followed by the failure notification, so the file
is retained. -/
theorem masherThread_pushstate_lifecycle (resume fileExists0 initPathFails : Bool)
    (fails : Stage → Bool) (pcomp : Bool)
    (hconflict : (fileExists0 && !resume) = false)
    (hpath : initPathFails = false) :
    (MasherThread.work resume fileExists0 initPathFails fails pcomp).1 = false
    ∧ (workEvents resume fileExists0 initPathFails fails pcomp)[1]? = some WEv.save
    ∧ (∀ k, 2 ≤ k →
        k + 1 < (workEvents resume fileExists0 initPathFails fails pcomp).length →
        fileAfter fileExists0
          ((workEvents resume fileExists0 initPathFails fails pcomp).take k) = true)
    ∧ (fileAfter fileExists0 (workEvents resume fileExists0 initPathFails fails pcomp) = false ↔
        (resume = false ∧ ∀ s : Stage,
          WEv.stageDone s ∈ workEvents resume fileExists0 initPathFails fails pcomp))
    ∧ (WEv.remove ∈ workEvents resume fileExists0 initPathFails fails pcomp ↔
        (resume = false ∧ ∀ s : Stage, effFails fails pcomp s = false))
    ∧ ((resume = true ∨ ∃ s : Stage, effFails fails pcomp s = true) →
        ∃ pre, workEvents resume fileExists0 initPathFails fails pcomp
          = pre ++ [WEv.save, WEv.notifyComplete false]) := by
  subst hpath
  cases resume with
  | true =>
    cases hl : fails Stage.loadUpdates with
    | true =>
      have hE : workEvents true fileExists0 false fails pcomp
          = [WEv.notifyMashing, WEv.save, WEv.save, WEv.notifyComplete false] := by
        simp [workEvents, MasherThread.work, hl]
      refine ⟨by simp [MasherThread.work], by rw [hE]; rfl, ?_, ?_, ?_, ?_⟩
      · intro k hk2 hklen
        rw [hE] at hklen ⊢
        simp at hklen
        have hk : k = 2 := by omega
        subst hk
        rfl
      · rw [hE]
        constructor
        · intro hx
          exact absurd hx (by simp [fileAfter, fileStep])
        · rintro ⟨hx, _⟩
          cases hx
      · rw [hE]
        constructor
        · intro hx
          simp at hx
        · rintro ⟨hx, _⟩
          cases hx
      · intro _
        exact ⟨[WEv.notifyMashing, WEv.save], by rw [hE]; rfl⟩
    | false =>
      have hE : workEvents true fileExists0 false fails pcomp
          = [WEv.notifyMashing, WEv.save, WEv.stageDone Stage.loadUpdates,
             WEv.save, WEv.notifyComplete false] := by
        simp [workEvents, MasherThread.work, hl]
      refine ⟨by simp [MasherThread.work], by rw [hE]; rfl, ?_, ?_, ?_, ?_⟩
      · intro k hk2 hklen
        rw [hE] at hklen ⊢
        simp at hklen
        have hk : k = 2 ∨ k = 3 := by omega
        rcases hk with rfl | rfl <;> rfl
      · rw [hE]
        constructor
        · intro hx
          exact absurd hx (by simp [fileAfter, fileStep])
        · rintro ⟨hx, _⟩
          cases hx
      · rw [hE]
        constructor
        · intro hx
          simp at hx
        · rintro ⟨hx, _⟩
          cases hx
      · intro _
        exact ⟨[WEv.notifyMashing, WEv.save, WEv.stageDone Stage.loadUpdates], by rw [hE]; rfl⟩
  | false =>
    have hf0 : fileExists0 = false := by simpa using hconflict
    subst hf0
    cases hl : fails Stage.loadUpdates with
    | true =>
      have hE : workEvents false false false fails pcomp
          = [WEv.notifyMashing, WEv.save, WEv.save, WEv.notifyComplete false] := by
        simp [workEvents, MasherThread.work, hl]
      refine ⟨by simp [MasherThread.work], by rw [hE]; rfl, ?_, ?_, ?_, ?_⟩
      · intro k hk2 hklen
        rw [hE] at hklen ⊢
        simp at hklen
        have hk : k = 2 := by omega
        subst hk
        rfl
      · rw [hE]
        constructor
        · intro hx
          exact absurd hx (by simp [fileAfter, fileStep])
        · rintro ⟨_, hall⟩
          have hx := hall Stage.loadUpdates
          simp at hx
      · rw [hE]
        constructor
        · intro hx
          simp at hx
        · rintro ⟨_, hall⟩
          have hx := hall Stage.loadUpdates
          simp [effFails, hl] at hx
      · intro _
        exact ⟨[WEv.notifyMashing, WEv.save], by rw [hE]; rfl⟩
    | false =>
      have hE : workEvents false false false fails pcomp
          = WEv.notifyMashing :: WEv.save :: WEv.stageDone Stage.loadUpdates ::
              goStages fails pcomp mainStages := by
        simp [workEvents, MasherThread.work, hl]
      refine ⟨by simp [MasherThread.work], by rw [hE]; rfl, ?_, ?_, ?_, ?_⟩
      · intro k hk2 hklen
        rw [hE] at hklen ⊢
        obtain ⟨k2, rfl⟩ : ∃ k2, k = k2 + 2 := ⟨k - 2, by omega⟩
        have hklen2 : k2 + 3 < (goStages fails pcomp mainStages).length + 3 := by
          simpa [Nat.add_comm, Nat.add_left_comm, Nat.add_assoc] using hklen
        have hstep : fileAfter false
            ((WEv.notifyMashing :: WEv.save :: WEv.stageDone Stage.loadUpdates ::
              goStages fails pcomp mainStages).take (k2 + 2))
            = fileAfter true ((WEv.stageDone Stage.loadUpdates ::
              goStages fails pcomp mainStages).take k2) := rfl
        rw [hstep]
        cases k2 with
        | zero => rfl
        | succ k3 =>
          have hstep2 : fileAfter true ((WEv.stageDone Stage.loadUpdates ::
              goStages fails pcomp mainStages).take (k3 + 1))
              = fileAfter true ((goStages fails pcomp mainStages).take k3) := rfl
          rw [hstep2]
          apply fileAfter_true_of_not_remove
          apply goStages_take_not_remove
          omega
      · rw [hE]
        have hfa : fileAfter false
            (WEv.notifyMashing :: WEv.save :: WEv.stageDone Stage.loadUpdates ::
              goStages fails pcomp mainStages)
            = fileAfter true (goStages fails pcomp mainStages) := rfl
        rw [hfa, goStages_fileAfter_iff]
        constructor
        · intro hall
          refine ⟨rfl, fun s => ?_⟩
          rcases stage_cover s with rfl | hs
          · simp
          · have hx := (goStages_stageDone_iff fails pcomp mainStages mainStages_nodup).mpr hall s hs
            simp [hx]
        · rintro ⟨_, hall⟩
          apply (goStages_stageDone_iff fails pcomp mainStages mainStages_nodup).mp
          intro s hs
          have hm := hall s
          have hne : s ≠ Stage.loadUpdates := fun hh => loadUpdates_not_mem_main (hh ▸ hs)
          simp [hne] at hm
          exact hm
      · rw [hE]
        have hmem : WEv.remove ∈ (WEv.notifyMashing :: WEv.save ::
            WEv.stageDone Stage.loadUpdates :: goStages fails pcomp mainStages) ↔
            WEv.remove ∈ goStages fails pcomp mainStages := by
          simp
        rw [hmem, goStages_remove_mem_iff]
        constructor
        · intro hall
          refine ⟨rfl, fun s => ?_⟩
          rcases stage_cover s with rfl | hs
          · simp [effFails, hl]
          · exact hall s hs
        · rintro ⟨_, hall⟩
          exact fun s _ => hall s
      · intro hor
        rcases hor with hres | ⟨s, hs⟩
        · cases hres
        · rcases stage_cover s with rfl | hsm
          · exact absurd hs (by simp [effFails, hl])
          · obtain ⟨pre, hpre⟩ := goStages_fail_suffix fails pcomp mainStages ⟨s, hsm, hs⟩
            refine ⟨WEv.notifyMashing :: WEv.save :: WEv.stageDone Stage.loadUpdates :: pre, ?_⟩
            rw [hE, hpre]
            simp

theorem masherThread_pushstate_lifecycle_witness :
    (MasherThread.work false false false noFails false).1 = false
    ∧ (workEvents false false false noFails false)[1]? = some WEv.save
    ∧ (∀ k, 2 ≤ k → k + 1 < (workEvents false false false noFails false).length →
        fileAfter false ((workEvents false false false noFails false).take k) = true)
    ∧ (fileAfter false (workEvents false false false noFails false) = false ↔
        (false = false ∧ ∀ s : Stage,
          WEv.stageDone s ∈ workEvents false false false noFails false))
    ∧ (WEv.remove ∈ workEvents false false false noFails false ↔
        (false = false ∧ ∀ s : Stage, effFails noFails false s = false))
    ∧ ((false = true ∨ ∃ s : Stage, effFails noFails false s = true) →
        ∃ pre, workEvents false false false noFails false
          = pre ++ [WEv.save, WEv.notifyComplete false]) :=
  masherThread_pushstate_lifecycle false false false noFails false rfl rfl

/-- C9: failures raised before the try-block of `MasherThread.work` emit
no completion notification at all: on the fresh-push state-file conflict
the run escapes with no events, and on a working-directory creation
failure the run escapes without any `mashtask.complete` message;
by contrast, any failure after the try-block starts (any raising stage,
or the resume branch's NotImplementedError) is caught and does emit a
failure completion notification. -/
theorem masherThread_no_notice_before_catch (resume fileExists0 initPathFails : Bool)
    (fails : Stage → Bool) (pcomp : Bool) :
    ((fileExists0 && !resume) = true →
      MasherThread.work resume fileExists0 initPathFails fails pcomp = (true, []))
    ∧ (initPathFails = true →
      (MasherThread.work resume fileExists0 initPathFails fails pcomp).1 = true
      ∧ ∀ b : Bool, WEv.notifyComplete b ∉
          workEvents resume fileExists0 initPathFails fails pcomp)
    ∧ ((fileExists0 && !resume) = false → initPathFails = false →
      (resume = true ∨ ∃ s : Stage, effFails fails pcomp s = true) →
      (MasherThread.work resume fileExists0 initPathFails fails pcomp).1 = false
      ∧ WEv.notifyComplete false ∈
          workEvents resume fileExists0 initPathFails fails pcomp) := by
  refine ⟨?_, ?_, ?_⟩
  · intro h
    simp [MasherThread.work, h]
  · intro h
    cases hc : (fileExists0 && !resume) with
    | true =>
      constructor
      · simp [MasherThread.work, hc]
      · intro b
        simp [workEvents, MasherThread.work, hc]
    | false =>
      constructor
      · simp [MasherThread.work, hc, h]
      · intro b
        simp [workEvents, MasherThread.work, hc, h]
  · intro hc hp hor
    subst hp
    refine ⟨by simp [MasherThread.work, hc], ?_⟩
    cases resume with
    | true =>
      cases hl : fails Stage.loadUpdates <;>
        simp [workEvents, MasherThread.work, hc, hl]
    | false =>
      have hf : fileExists0 = false := by simpa using hc
      subst hf
      rcases hor with hres | ⟨s, hs⟩
      · cases hres
      · cases hl : fails Stage.loadUpdates with
        | true => simp [workEvents, MasherThread.work, hl]
        | false =>
          have hsm : s ∈ mainStages := by
            rcases stage_cover s with rfl | h2
            · exact absurd hs (by simp [effFails, hl])
            · exact h2
          obtain ⟨pre, hpre⟩ := goStages_fail_suffix fails pcomp mainStages ⟨s, hsm, hs⟩
          simp [workEvents, MasherThread.work, hl, hpre]

theorem masherThread_no_notice_before_catch_witness :
    ((false && !false) = true →
      MasherThread.work false false false lockFails false = (true, []))
    ∧ (false = true →
      (MasherThread.work false false false lockFails false).1 = true
      ∧ ∀ b : Bool, WEv.notifyComplete b ∉ workEvents false false false lockFails false)
    ∧ ((false && !false) = false → false = false →
      (false = true ∨ ∃ s : Stage, effFails lockFails false s = true) →
      (MasherThread.work false false false lockFails false).1 = false
      ∧ WEv.notifyComplete false ∈ workEvents false false false lockFails false) :=
  masherThread_no_notice_before_catch false false false lockFails false
